import Mathlib

/-!
# Verification of the erdantic composition-graph core

Shallow embedding of `src/erdantic/erd.py` (Edge, EntityRelationshipDiagram,
`create`, `adapt_model`, `search_composition_graph`), of the field adapter data
from `src/erdantic/pydantic.py`, and of `src/erdantic/enums.py`.

The repository's `erdantic/base.py`, `erdantic/exceptions.py` and
`erdantic/typing.py` are not part of the sources; the Model/Field capability
data, the adapter registry lookup and `get_recursive_args` are modelled from
the specification (each such definition says so in its doc comment).

Python classes are identified by an abstract identity key (a natural number
standing for the fully-qualified type name); Python `set`s are modelled as
duplicate-free lists in insertion order together with an explicit enumeration
function standing for the unspecified set iteration order used by `list(s)`;
Python `hash` values are modelled injectively by the tuples the code hashes;
exceptions are modelled by `Except`.
-/

deriving instance DecidableEq for Except

namespace Erdantic

/-- Modelled from the spec (the type-argument resolver of the missing
`erdantic/typing.py`): a field's declared type expression is a bare type, an
optional wrapper, a container of one or two element types (multi-argument
containers and unions are represented by nesting), a union of two types, an
unresolved string annotation, or a named-but-unbound forward reference.
The leaf raw types are identity keys (`Nat`). -/
inductive TypeExpr where
  | bare (t : Nat) : TypeExpr
  | optionalOf (inner : TypeExpr) : TypeExpr
  | containerOf (elem : TypeExpr) : TypeExpr
  | container2Of (a b : TypeExpr) : TypeExpr
  | unionOf (a b : TypeExpr) : TypeExpr
  | strRef (ref : String) : TypeExpr
  | namedRef (ref : String) : TypeExpr
deriving DecidableEq, Repr

/-- Modelled from the spec: the two private forward-reference failure kinds
raised by the type-argument resolver (`_StringForwardRefError` and
`_UnevaluatedForwardRefError`), each carrying the raw reference. -/
inductive RefErr where
  | strForward (ref : String) : RefErr
  | unevalForward (ref : String) : RefErr
deriving DecidableEq, Repr

/-- Modelled from the spec: `get_recursive_args` flattens a declared type
expression into the list of leaf type candidates. A bare type yields itself;
an optional wrapper yields the wrapped type's candidates (the none arm is
dropped); a container yields the candidates of its element type argument(s);
a union yields the union of its members' candidates; an unresolved string
annotation fails with the string-forward-reference condition; a
named-but-unbound forward reference fails with the distinct
unevaluated-forward-reference condition. -/
def get_recursive_args : TypeExpr → Except RefErr (List Nat)
  | .bare t => .ok [t]
  | .optionalOf inner => get_recursive_args inner
  | .containerOf elem => get_recursive_args elem
  | .container2Of a b => do
      let xs ← get_recursive_args a
      let ys ← get_recursive_args b
      .ok (xs ++ ys)
  | .unionOf a b => do
      let xs ← get_recursive_args a
      let ys ← get_recursive_args b
      .ok (xs ++ ys)
  | .strRef r => .error (.strForward r)
  | .namedRef r => .error (.unevalForward r)

/-- Field adapter data, from `PydanticField` in `src/erdantic/pydantic.py`:
a name, an optional description, the declared type expression
(`field.outer_type_`), the pydantic `shape` and the `allow_none` flag. -/
structure Field where
  name : String
  description : Option String
  outer_type : TypeExpr
  shape : Nat
  allow_none : Bool
deriving DecidableEq, Repr

/-- `PydanticField.is_many` (src/erdantic/pydantic.py): `self.field.shape > 1`. -/
def Field.is_many (f : Field) : Bool := decide (1 < f.shape)

/-- `PydanticField.is_nullable` (src/erdantic/pydantic.py): `self.field.allow_none`. -/
def Field.is_nullable (f : Field) : Bool := f.allow_none

/-- `PydanticField.type_obj` (src/erdantic/pydantic.py): the outer type,
wrapped in `Optional` when the field allows `None`. -/
def Field.type_obj (f : Field) : TypeExpr :=
  if f.allow_none then .optionalOf f.outer_type else f.outer_type

/-- Model adapter data. Modelled from the spec (the `Model` capability of the
missing `erdantic/base.py`): a stable identity key standing for the
fully-qualified type name, a display name, an optional description and the
ordered field sequence. Two models are equal iff they wrap the same
underlying type, abstracted here as structural equality with identity keys. -/
structure ModelDecl where
  key : Nat
  name : String
  description : Option String
  fields : List Field
deriving DecidableEq, Repr

/-- The adapter registry view of the running process. Modelled from the spec:
the registered adapters recognise exactly the classes listed here; a raw type
(identity key) is adapted by the first declaration whose key matches. -/
structure World where
  decls : List ModelDecl
deriving DecidableEq, Repr

/-- `adapt_model` (src/erdantic/erd.py): dispatch a raw type to the first
registered adapter whose `is_model_type` predicate matches; `none` models the
raised `UnknownModelTypeError`. -/
def adapt_model (w : World) (t : Nat) : Option ModelDecl :=
  w.decls.find? (fun d => d.key == t)

/-- The error taxonomy of `erdantic/exceptions.py` (not among the sources),
modelled from the spec, together with the `IndexError` that
`EntityRelationshipDiagram.__init__` raises on an empty model sequence. -/
inductive ErdError where
  | unknownModelType (t : Nat) : ErdError
  | unknownField (sourceKey : Nat) (fieldName : String) : ErdError
  | stringForwardRef (modelKey : Nat) (fieldName : String) (ref : String) : ErdError
  | unevaluatedForwardRef (modelKey : Nat) (fieldName : String) (ref : String) : ErdError
  | indexError : ErdError
deriving DecidableEq, Repr

/-- `Edge` (src/erdantic/erd.py): a composition relationship from a source
model through one of its fields to a target model. -/
structure Edge where
  source : ModelDecl
  source_field : Field
  target : ModelDecl
deriving DecidableEq, Repr

/-- `Edge.__init__` (src/erdantic/erd.py): raises `UnknownFieldError` when
`source_field` is not a member of `source.fields`, otherwise stores the three
attributes unchanged. -/
def Edge.make (source : ModelDecl) (source_field : Field) (target : ModelDecl) :
    Except ErdError Edge :=
  if source_field ∈ source.fields then
    .ok { source := source, source_field := source_field, target := target }
  else
    .error (.unknownField source.key source_field.name)

/-- `Edge.__hash__` (src/erdantic/erd.py) hashes the triple
`(source, source_field, target)`; the hash is modelled injectively by the
triple itself. -/
def edgeHash (e : Edge) : ModelDecl × Field × ModelDecl :=
  (e.source, e.source_field, e.target)

/-- `Edge.__eq__` (src/erdantic/erd.py): `isinstance(other, Edge) and
hash(self) == hash(other)`. -/
def edgePyEq (e₁ e₂ : Edge) : Bool := decide (edgeHash e₁ = edgeHash e₂)

/-- `Edge.dot_arrowhead` (src/erdantic/erd.py): `"crow"` (many) versus
`"nonetee"` (one) from `is_many`, concatenated with `"odot"` (optional)
versus `"tee"` (mandatory) from `is_nullable or is_many`. -/
def Edge.dot_arrowhead (e : Edge) : String :=
  (if e.source_field.is_many then "crow" else "nonetee") ++
    (if e.source_field.is_nullable || e.source_field.is_many then "odot" else "tee")

/-- `Orientation` (src/erdantic/enums.py). -/
inductive Orientation where
  | vertical : Orientation
  | horizontal : Orientation
deriving DecidableEq, Repr

/-- `Orientation.__str__` (src/erdantic/enums.py): the enum value. -/
def Orientation.str : Orientation → String
  | .vertical => "TB"
  | .horizontal => "LR"

/-- The pair of mutable sets threaded through `search_composition_graph`
(src/erdantic/erd.py), as duplicate-free lists in insertion order. -/
structure TravState where
  seen_models : List ModelDecl
  seen_edges : List Edge
deriving DecidableEq, Repr

/-- `seen_edges.add(edge)` (src/erdantic/erd.py line 283): set insertion,
a no-op when an edge with the same hash triple is already present. -/
def insertEdge (e : Edge) (l : List Edge) : List Edge :=
  if e ∈ l then l else l ++ [e]

/-- The inner candidate loop of `search_composition_graph`
(src/erdantic/erd.py lines 281-292): for each candidate raw type, try
`adapt_model`; on `UnknownModelTypeError` silently skip the candidate;
otherwise construct the edge, add it to `seen_edges` and recurse (`visit` is
the recursive call, already at depth + 1). -/
def visitArgsAux (visit : ModelDecl → TravState → Except ErdError TravState)
    (w : World) (model : ModelDecl) (f : Field) :
    List Nat → TravState → Except ErdError TravState
  | [], st => .ok st
  | a :: rest, st =>
    match adapt_model w a with
    | none => visitArgsAux visit w model f rest st
    | some field_model => do
        let e ← Edge.make model f field_model
        let st1 : TravState := ⟨st.seen_models, insertEdge e st.seen_edges⟩
        let st2 ← visit field_model st1
        visitArgsAux visit w model f rest st2

/-- The field loop of `search_composition_graph` (src/erdantic/erd.py lines
278-300): resolve each field's candidates with `get_recursive_args`,
re-raising the private forward-reference failures as the public errors that
carry the model, the field and the raw reference. -/
def visitFieldsAux (visit : ModelDecl → TravState → Except ErdError TravState)
    (w : World) (model : ModelDecl) :
    List Field → TravState → Except ErdError TravState
  | [], st => .ok st
  | f :: fs, st =>
    match get_recursive_args f.type_obj with
    | .error (.strForward r) => .error (.stringForwardRef model.key f.name r)
    | .error (.unevalForward r) => .error (.unevaluatedForwardRef model.key f.name r)
    | .ok args => do
        let st1 ← visitArgsAux visit w model f args st
        visitFieldsAux visit w model fs st1

/-- The body of `search_composition_graph` (src/erdantic/erd.py lines
274-300), indexed by the remaining descent budget
`fuel = depth_limit - depth`: if the model was already seen, return
immediately; otherwise record it, and when `depth < depth_limit`
(i.e. `fuel > 0`) expand its fields, recursing at `depth + 1`
(i.e. `fuel - 1`). -/
def visitModel (w : World) (fuel : Nat) (model : ModelDecl) (st : TravState) :
    Except ErdError TravState :=
  if model ∈ st.seen_models then .ok st
  else
    let st1 : TravState := ⟨st.seen_models ++ [model], st.seen_edges⟩
    match fuel with
    | 0 => .ok st1
    | fuel1 + 1 => visitFieldsAux (fun c s => visitModel w fuel1 c s) w model model.fields st1

/-- `search_composition_graph` (src/erdantic/erd.py): the pair
`(depth, depth_limit)` enters the code only through the guard
`depth < depth_limit` and the recursive `depth + 1`, so it is represented by
the budget `depth_limit - depth`. -/
def search_composition_graph (w : World) (model : ModelDecl) (st : TravState)
    (depth : Nat) (depth_limit : Nat) : Except ErdError TravState :=
  visitModel w (depth_limit - depth) model st

/-- `EntityRelationshipDiagram` (src/erdantic/erd.py): canonical sorted model
and edge sequences, the diagram name, and the orientation string. -/
structure EntityRelationshipDiagram where
  models : List ModelDecl
  edges : List Edge
  name : String
  orientation : String
deriving DecidableEq, Repr

/-- Modelled from the spec (`Model.__lt__` of the missing `erdantic/base.py`):
models are totally ordered by their identity key. -/
def modelLe (m₁ m₂ : ModelDecl) : Prop := m₁.key ≤ m₂.key

instance : DecidableRel modelLe := fun m₁ m₂ => Nat.decLe m₁.key m₂.key

instance : IsTotal ModelDecl modelLe := ⟨fun m₁ m₂ => Nat.le_total m₁.key m₂.key⟩

instance : IsTrans ModelDecl modelLe := ⟨fun _ _ _ => Nat.le_trans⟩

/-- The sort key of `Edge.__lt__` (src/erdantic/erd.py):
`(source, source.fields.index(source_field), target)`, with the models
compared by their identity keys. -/
def edgeSortKey (e : Edge) : Nat × Nat × Nat :=
  (e.source.key, e.source.fields.indexOf e.source_field, e.target.key)

/-- Lexicographic order on the edge sort keys. -/
def key3Le (a b : Nat × Nat × Nat) : Prop :=
  a.1 < b.1 ∨ (a.1 = b.1 ∧ (a.2.1 < b.2.1 ∨ (a.2.1 = b.2.1 ∧ a.2.2 ≤ b.2.2)))

instance : DecidableRel key3Le := fun a b => by unfold key3Le; infer_instance

/-- `Edge.__lt__`-induced total preorder used by `sorted(edges)`. -/
def edgeLe (e₁ e₂ : Edge) : Prop := key3Le (edgeSortKey e₁) (edgeSortKey e₂)

instance : DecidableRel edgeLe := fun e₁ e₂ => by unfold edgeLe; infer_instance

theorem key3Le_total (a b : Nat × Nat × Nat) : key3Le a b ∨ key3Le b a := by
  unfold key3Le
  rcases Nat.lt_trichotomy a.1 b.1 with h | h | h
  · exact Or.inl (Or.inl h)
  · rcases Nat.lt_trichotomy a.2.1 b.2.1 with h2 | h2 | h2
    · exact Or.inl (Or.inr ⟨h, Or.inl h2⟩)
    · rcases Nat.le_total a.2.2 b.2.2 with h3 | h3
      · exact Or.inl (Or.inr ⟨h, Or.inr ⟨h2, h3⟩⟩)
      · exact Or.inr (Or.inr ⟨h.symm, Or.inr ⟨h2.symm, h3⟩⟩)
    · exact Or.inr (Or.inr ⟨h.symm, Or.inl h2⟩)
  · exact Or.inr (Or.inl h)

theorem key3Le_trans {a b c : Nat × Nat × Nat} (h₁ : key3Le a b) (h₂ : key3Le b c) :
    key3Le a c := by
  unfold key3Le at *
  rcases h₁ with h₁ | ⟨e₁, h₁⟩
  · rcases h₂ with h₂ | ⟨e₂, _⟩
    · exact Or.inl (Nat.lt_trans h₁ h₂)
    · exact Or.inl (e₂ ▸ h₁)
  · rcases h₂ with h₂ | ⟨e₂, h₂⟩
    · exact Or.inl (e₁ ▸ h₂)
    · refine Or.inr ⟨e₁.trans e₂, ?_⟩
      rcases h₁ with h₁ | ⟨f₁, h₁⟩
      · rcases h₂ with h₂ | ⟨f₂, _⟩
        · exact Or.inl (Nat.lt_trans h₁ h₂)
        · exact Or.inl (f₂ ▸ h₁)
      · rcases h₂ with h₂ | ⟨f₂, h₂⟩
        · exact Or.inl (f₁ ▸ h₂)
        · exact Or.inr ⟨f₁.trans f₂, Nat.le_trans h₁ h₂⟩

theorem key3Le_antisymm {a b : Nat × Nat × Nat} (h₁ : key3Le a b) (h₂ : key3Le b a) :
    a = b := by
  obtain ⟨a1, a2, a3⟩ := a
  obtain ⟨b1, b2, b3⟩ := b
  unfold key3Le at h₁ h₂
  simp only at h₁ h₂
  rcases h₁ with h₁ | ⟨e₁, h₁⟩
  · rcases h₂ with h₂ | ⟨e₂, _⟩
    · exact absurd (Nat.lt_trans h₁ h₂) (Nat.lt_irrefl _)
    · exact absurd (e₂ ▸ h₁) (Nat.lt_irrefl _)
  · rcases h₂ with h₂ | ⟨_, h₂⟩
    · exact absurd (e₁ ▸ h₂) (Nat.lt_irrefl _)
    · rcases h₁ with h₁ | ⟨f₁, h₁⟩
      · rcases h₂ with h₂ | ⟨f₂, _⟩
        · exact absurd (Nat.lt_trans h₁ h₂) (Nat.lt_irrefl _)
        · exact absurd (f₂ ▸ h₁) (Nat.lt_irrefl _)
      · rcases h₂ with h₂ | ⟨_, h₂⟩
        · exact absurd (f₁ ▸ h₂) (Nat.lt_irrefl _)
        · simp [e₁, f₁, Nat.le_antisymm h₁ h₂]

instance : IsTotal Edge edgeLe := ⟨fun e₁ e₂ => key3Le_total (edgeSortKey e₁) (edgeSortKey e₂)⟩

instance : IsTrans Edge edgeLe := ⟨fun _ _ _ => key3Le_trans⟩

/-- `sorted(models)` in `EntityRelationshipDiagram.__init__`
(src/erdantic/erd.py line 96). -/
def sortModels (l : List ModelDecl) : List ModelDecl := List.insertionSort modelLe l

/-- `sorted(edges)` in `EntityRelationshipDiagram.__init__`
(src/erdantic/erd.py line 97). -/
def sortEdges (l : List Edge) : List Edge := List.insertionSort edgeLe l

/-- `EntityRelationshipDiagram.__init__` (src/erdantic/erd.py lines 95-99):
sort the models and the edges, then read `models[0].name` from the unsorted
argument sequence — which raises `IndexError` when that sequence is empty —
and store the orientation string. -/
def EntityRelationshipDiagram.make (models : List ModelDecl) (edges : List Edge)
    (orient : Orientation) : Except ErdError EntityRelationshipDiagram :=
  match models with
  | [] => .error .indexError
  | m0 :: _ =>
    .ok { models := sortModels models, edges := sortEdges edges,
          name := m0.name, orientation := orient.str }

/-- `EntityRelationshipDiagram.__hash__` (src/erdantic/erd.py lines 155-156)
hashes `(tuple(self.models), tuple(self.edges))`; modelled injectively by the
pair itself. The name and the orientation do not enter the hash. -/
def diagramHashKey (d : EntityRelationshipDiagram) : List ModelDecl × List Edge :=
  (d.models, d.edges)

/-- `EntityRelationshipDiagram.__eq__` (src/erdantic/erd.py lines 158-159):
`isinstance(other, type(self)) and hash(self) == hash(other)`. -/
def diagramPyEq (d₁ d₂ : EntityRelationshipDiagram) : Bool :=
  decide (diagramHashKey d₁ = diagramHashKey d₂)

/-- The unspecified iteration order of `list(seen_models)` /
`list(seen_edges)` in `create` (src/erdantic/erd.py line 213): a CPython set
enumerates its elements in a hash-dependent order, modelled as an arbitrary
function on the insertion-order contents. -/
structure SetEnum where
  enumModels : List ModelDecl → List ModelDecl
  enumEdges : List Edge → List Edge

/-- A `SetEnum` is admissible when it returns the set's contents, i.e. a
permutation of them. -/
def IsSetEnum (E : SetEnum) : Prop :=
  (∀ l, List.Perm (E.enumModels l) l) ∧ (∀ l, List.Perm (E.enumEdges l) l)

/-- The root loop body of `create` (src/erdantic/erd.py lines 205-212):
adapt the raw root — `UnknownModelTypeError` is fatal here — and search its
composition graph from depth 0. -/
def rootStep (w : World) (depth_limit : Nat) (st : TravState) (r : Nat) :
    Except ErdError TravState :=
  match adapt_model w r with
  | none => .error (.unknownModelType r)
  | some m => search_composition_graph w m st 0 depth_limit

/-- The root loop of `create` (src/erdantic/erd.py lines 205-212). -/
def rootsFold (w : World) (depth_limit : Nat) (roots : List Nat) (st : TravState) :
    Except ErdError TravState :=
  roots.foldlM (rootStep w depth_limit) st

/-- `create` (src/erdantic/erd.py lines 175-213), for roots given as classes
(the `isinstance(mm, type)` branch; module scanning is runtime reflection and
is not modelled): run the traversal from empty seen-sets over the roots in
order, then build the diagram from `list(seen_models)` and
`list(seen_edges)` as enumerated by `E`. -/
def create (w : World) (E : SetEnum) (roots : List Nat) (depth_limit : Nat)
    (orient : Orientation) : Except ErdError EntityRelationshipDiagram := do
  let st ← rootsFold w depth_limit roots ⟨[], []⟩
  EntityRelationshipDiagram.make (E.enumModels st.seen_models)
    (E.enumEdges st.seen_edges) orient

/-- The insertion-order enumeration. -/
def idEnum : SetEnum := ⟨id, id⟩

/-- The reversed enumeration — also an admissible set iteration order. -/
def revEnum : SetEnum := ⟨List.reverse, List.reverse⟩

/-- `create` with the insertion-order enumeration and the default
orientation (`Orientation.HORIZONTAL`). -/
def createDefault (w : World) (roots : List Nat) (depth_limit : Nat) :
    Except ErdError EntityRelationshipDiagram :=
  create w idEnum roots depth_limit Orientation.horizontal

/-- One composition step in the world graph: some field of `m` has a resolved
candidate that adapts to `t`. -/
def FieldStep (w : World) (m t : ModelDecl) : Prop :=
  ∃ f, f ∈ m.fields ∧ ∃ args, get_recursive_args f.type_obj = .ok args ∧
    ∃ a, a ∈ args ∧ adapt_model w a = some t

/-- `ReachN w m k t`: `t` is reachable from `m` in exactly `k` composition
steps. -/
inductive ReachN (w : World) (m : ModelDecl) : Nat → ModelDecl → Prop where
  | refl : ReachN w m 0 m
  | step {k : Nat} {mid t : ModelDecl} :
      ReachN w m k mid → FieldStep w mid t → ReachN w m (k + 1) t

/-- A model is adapter-originated when adapting its own key returns it; every
model the traversal touches has this property, and it makes identity keys
injective on the touched models. -/
def AdaptOrigin (w : World) (m : ModelDecl) : Prop :=
  adapt_model w m.key = some m

/-- The edge's target is one of the resolved candidates of the edge's own
source field. -/
def EdgeStepAt (w : World) (e : Edge) : Prop :=
  ∃ args, get_recursive_args e.source_field.type_obj = .ok args ∧
    ∃ a, a ∈ args ∧ adapt_model w a = some e.target

/-- Well-formedness of a traversal edge: both endpoints are
adapter-originated and the source field belongs to the source's fields. -/
def EdgeWf (w : World) (e : Edge) : Prop :=
  AdaptOrigin w e.source ∧ AdaptOrigin w e.target ∧
    e.source_field ∈ e.source.fields

/-- What one successful `visitModel w fuel m` call guarantees: the seen-sets
only grow (append-only), the visited model got recorded, duplicate-freeness
is preserved, and every newly added model (resp. edge source) is reachable
from `m` within `fuel` (resp. strictly within `fuel`) steps. -/
def VisitSpec (w : World) (fuel : Nat) (m : ModelDecl) (st st' : TravState) : Prop :=
  ∃ msuf esuf,
    st'.seen_models = st.seen_models ++ msuf ∧
    st'.seen_edges = st.seen_edges ++ esuf ∧
    m ∈ st'.seen_models ∧
    (st.seen_models.Nodup → st'.seen_models.Nodup) ∧
    (st.seen_edges.Nodup → st'.seen_edges.Nodup) ∧
    (∀ x, x ∈ msuf → AdaptOrigin w x ∧ ∃ k, k ≤ fuel ∧ ReachN w m k x) ∧
    (∀ e, e ∈ esuf → EdgeWf w e ∧
      ∃ k, k < fuel ∧ ReachN w m k e.source ∧ EdgeStepAt w e)

/-- Like `VisitSpec`, for the inner loops of a visit of `model` whose
recursive calls run at budget `fuel1 = fuel - 1`. -/
def ArgsSpec (w : World) (fuel1 : Nat) (model : ModelDecl) (st st' : TravState) : Prop :=
  ∃ msuf esuf,
    st'.seen_models = st.seen_models ++ msuf ∧
    st'.seen_edges = st.seen_edges ++ esuf ∧
    (st.seen_models.Nodup → st'.seen_models.Nodup) ∧
    (st.seen_edges.Nodup → st'.seen_edges.Nodup) ∧
    (∀ x, x ∈ msuf → AdaptOrigin w x ∧ ∃ k, k ≤ fuel1 + 1 ∧ ReachN w model k x) ∧
    (∀ e, e ∈ esuf → EdgeWf w e ∧
      ∃ k, k < fuel1 + 1 ∧ ReachN w model k e.source ∧ EdgeStepAt w e)

/-- What the root loop of `create` guarantees: append-only growth,
duplicate-freeness preservation, every adapted root recorded, and every new
model (resp. edge) reachable from some adapted root within `dl` steps
(resp. with its source strictly within `dl` steps). -/
def FoldSpec (w : World) (dl : Nat) (roots : List Nat) (st st' : TravState) : Prop :=
  ∃ msuf esuf,
    st'.seen_models = st.seen_models ++ msuf ∧
    st'.seen_edges = st.seen_edges ++ esuf ∧
    (st.seen_models.Nodup → st'.seen_models.Nodup) ∧
    (st.seen_edges.Nodup → st'.seen_edges.Nodup) ∧
    (∀ r, r ∈ roots → ∀ m₀, adapt_model w r = some m₀ → m₀ ∈ st'.seen_models) ∧
    (∀ x, x ∈ msuf → AdaptOrigin w x ∧
      ∃ r m₀ k, r ∈ roots ∧ adapt_model w r = some m₀ ∧ k ≤ dl ∧ ReachN w m₀ k x) ∧
    (∀ e, e ∈ esuf → EdgeWf w e ∧
      ∃ r m₀ k, r ∈ roots ∧ adapt_model w r = some m₀ ∧ k < dl ∧
        ReachN w m₀ k e.source ∧ EdgeStepAt w e)

/-! ### Concrete instances used to exercise the theorems -/

/-- A plain single-valued, non-nullable field of declared type `B`. -/
def fToB : Field :=
  { name := "b", description := none, outer_type := .bare 1, shape := 1, allow_none := false }

/-- Model `A` with the single field `b : B`. -/
def mA : ModelDecl := { key := 0, name := "A", description := none, fields := [fToB] }

/-- Leaf model `B`. -/
def mB : ModelDecl := { key := 1, name := "B", description := none, fields := [] }

/-- A world with the two models `A -> B`. -/
def wPair : World := ⟨[mA, mB]⟩

/-- The diagram produced by `createDefault wPair [0] 1`. -/
def dPair : EntityRelationshipDiagram :=
  { models := [mA, mB],
    edges := [{ source := mA, source_field := fToB, target := mB }],
    name := "A", orientation := "LR" }

/-- A collection-valued field typed as a container of the owning model
itself (`shape > 1`, so `is_many`). -/
def fSelf : Field :=
  { name := "s", description := none, outer_type := .containerOf (.bare 7),
    shape := 2, allow_none := false }

/-- A self-referential model: its field is typed as a container of itself. -/
def mSelf : ModelDecl := { key := 7, name := "S", description := none, fields := [fSelf] }

/-- A world whose composition graph is a self-loop. -/
def wSelf : World := ⟨[mSelf]⟩

/-- A nullable single-valued field. -/
def fOpt : Field :=
  { name := "o", description := none, outer_type := .bare 1, shape := 1, allow_none := true }

/-- A field whose declared type is an unresolved string annotation. -/
def fStr : Field :=
  { name := "bad", description := none, outer_type := .strRef "Quest",
    shape := 1, allow_none := false }

/-- A model carrying the string-forward-reference field. -/
def mStr : ModelDecl := { key := 3, name := "M", description := none, fields := [fStr] }

/-- A world that aborts discovery with the string-forward-reference error. -/
def wStr : World := ⟨[mStr]⟩

/-- A field whose declared type is a named-but-unbound forward reference. -/
def fNamed : Field :=
  { name := "later", description := none, outer_type := .namedRef "Party",
    shape := 1, allow_none := false }

/-- A model carrying the unevaluated-forward-reference field. -/
def mNamed : ModelDecl := { key := 4, name := "N", description := none, fields := [fNamed] }

/-- A world that aborts discovery with the unevaluated-forward-reference
error. -/
def wNamed : World := ⟨[mNamed]⟩

/-- A field whose union type mentions the same component model twice, so the
same (source, field, target) triple is produced twice during discovery. -/
def fDup : Field :=
  { name := "d", description := none, outer_type := .unionOf (.bare 1) (.bare 1),
    shape := 1, allow_none := false }

/-- A model referencing `B` twice through the same field. -/
def mDup : ModelDecl := { key := 5, name := "D", description := none, fields := [fDup] }

/-- A world with duplicate references to the same component through the same
field. -/
def wDup : World := ⟨[mDup, mB]⟩

/-- Field `c : C` for the chain world. -/
def fToC : Field :=
  { name := "c", description := none, outer_type := .bare 2, shape := 1, allow_none := false }

/-- Middle model of the chain `A2 -> B2 -> C2`. -/
def mB2 : ModelDecl := { key := 1, name := "B2", description := none, fields := [fToC] }

/-- Leaf model of the chain. -/
def mC2 : ModelDecl := { key := 2, name := "C2", description := none, fields := [] }

/-- Root of the chain `A2 -> B2 -> C2`. -/
def mA2 : ModelDecl := { key := 0, name := "A2", description := none, fields := [fToB] }

/-- A two-hop chain world, used to exercise depth limiting. -/
def wChain : World := ⟨[mA2, mB2, mC2]⟩

/-- The diagram produced by `create wPair revEnum [0] 1`: same sorted models
and edges as `dPair`, but named after the head of the reversed enumeration. -/
def dPairRev : EntityRelationshipDiagram :=
  { models := [mA, mB],
    edges := [{ source := mA, source_field := fToB, target := mB }],
    name := "B", orientation := "LR" }

/-- The diagram produced by `createDefault wSelf [7] 3`. -/
def dSelf : EntityRelationshipDiagram :=
  { models := [mSelf],
    edges := [{ source := mSelf, source_field := fSelf, target := mSelf }],
    name := "S", orientation := "LR" }

/-- The self-loop edge of `wDup`'s diagram. -/
def eDup : Edge := { source := mDup, source_field := fDup, target := mB }

/-- The diagram produced by `createDefault wDup [5] 1`. -/
def dDup : EntityRelationshipDiagram :=
  { models := [mB, mDup], edges := [eDup], name := "D", orientation := "LR" }

/-- The diagram produced by `createDefault wChain [0] 0`: the root only. -/
def dChain0 : EntityRelationshipDiagram :=
  { models := [mA2], edges := [], name := "A2", orientation := "LR" }

/-! ### Basic computation lemmas -/

theorem except_bind_ok {ε α β : Type} (a : α) (f : α → Except ε β) :
    (Except.ok a >>= f) = f a := rfl

theorem except_bind_error {ε α β : Type} (e : ε) (f : α → Except ε β) :
    ((Except.error e : Except ε α) >>= f) = .error e := rfl

theorem rootsFold_nil (w : World) (dl : Nat) (st : TravState) :
    rootsFold w dl [] st = .ok st := rfl

theorem rootsFold_cons (w : World) (dl : Nat) (r : Nat) (roots : List Nat)
    (st : TravState) :
    rootsFold w dl (r :: roots) st =
      (rootStep w dl st r) >>= fun st' => rootsFold w dl roots st' := rfl

theorem rootsFold_append (w : World) (dl : Nat) (l₁ l₂ : List Nat) (st : TravState) :
    rootsFold w dl (l₁ ++ l₂) st =
      (rootsFold w dl l₁ st) >>= fun st' => rootsFold w dl l₂ st' := by
  induction l₁ generalizing st with
  | nil => rfl
  | cons a l₁ ih =>
    rw [List.cons_append, rootsFold_cons, rootsFold_cons]
    cases rootStep w dl st a with
    | error e => rfl
    | ok st' => rw [except_bind_ok, except_bind_ok, ih]

theorem create_def (w : World) (E : SetEnum) (roots : List Nat) (dl : Nat)
    (orient : Orientation) :
    create w E roots dl orient =
      (rootsFold w dl roots ⟨[], []⟩) >>= fun st =>
        EntityRelationshipDiagram.make (E.enumModels st.seen_models)
          (E.enumEdges st.seen_edges) orient := rfl

/-! ### Adaptation, reachability and insertion lemmas -/

theorem adapt_key {w : World} {t : Nat} {m : ModelDecl}
    (h : adapt_model w t = some m) : m.key = t := by
  have hp := List.find?_some h
  simpa using hp

theorem adaptOrigin_of_adapt {w : World} {t : Nat} {m : ModelDecl}
    (h : adapt_model w t = some m) : AdaptOrigin w m := by
  unfold AdaptOrigin
  rw [adapt_key h]
  exact h

theorem adaptOrigin_inj {w : World} {m₁ m₂ : ModelDecl} (h₁ : AdaptOrigin w m₁)
    (h₂ : AdaptOrigin w m₂) (hk : m₁.key = m₂.key) : m₁ = m₂ := by
  unfold AdaptOrigin at h₁ h₂
  rw [hk] at h₁
  rw [h₁] at h₂
  exact Option.some.inj h₂

theorem reachN_zero {w : World} {m x : ModelDecl} (h : ReachN w m 0 x) : x = m := by
  cases h
  rfl

theorem reachN_trans {w : World} {m c x : ModelDecl} {j k : Nat}
    (h₁ : ReachN w m j c) (h₂ : ReachN w c k x) : ReachN w m (j + k) x := by
  induction h₂ with
  | refl => exact h₁
  | step _ hs ih => exact ReachN.step ih hs

theorem reachN_one {w : World} {m c : ModelDecl} (h : FieldStep w m c) :
    ReachN w m 1 c :=
  ReachN.step ReachN.refl h

theorem insertEdge_eq_append (e : Edge) (l : List Edge) :
    insertEdge e l = l ++ (if e ∈ l then [] else [e]) := by
  unfold insertEdge
  by_cases h : e ∈ l
  · rw [if_pos h, if_pos h, List.append_nil]
  · rw [if_neg h, if_neg h]

theorem nodup_append_singleton {α : Type} {l : List α} {a : α} (h : l.Nodup)
    (ha : a ∉ l) : (l ++ [a]).Nodup := by
  rw [List.nodup_append]
  refine ⟨h, List.nodup_singleton a, ?_⟩
  intro x hx hx'
  rw [List.mem_singleton] at hx'
  subst hx'
  exact ha hx

theorem insertEdge_nodup {e : Edge} {l : List Edge} (h : l.Nodup) :
    (insertEdge e l).Nodup := by
  unfold insertEdge
  by_cases hmem : e ∈ l
  · rw [if_pos hmem]
    exact h
  · rw [if_neg hmem]
    exact nodup_append_singleton h hmem

/-! ### Unfolding equations of the traversal -/

theorem visitModel_of_mem {w : World} {fuel : Nat} {model : ModelDecl}
    {st : TravState} (h : model ∈ st.seen_models) :
    visitModel w fuel model st = .ok st := by
  unfold visitModel
  rw [if_pos h]

theorem visitModel_zero {w : World} {model : ModelDecl} {st : TravState}
    (h : model ∉ st.seen_models) :
    visitModel w 0 model st = .ok ⟨st.seen_models ++ [model], st.seen_edges⟩ := by
  unfold visitModel
  rw [if_neg h]

theorem visitModel_succ {w : World} {fuel1 : Nat} {model : ModelDecl}
    {st : TravState} (h : model ∉ st.seen_models) :
    visitModel w (fuel1 + 1) model st =
      visitFieldsAux (fun c s => visitModel w fuel1 c s) w model model.fields
        ⟨st.seen_models ++ [model], st.seen_edges⟩ := by
  conv_lhs => unfold visitModel
  rw [if_neg h]

theorem visitFieldsAux_nil (v : ModelDecl → TravState → Except ErdError TravState)
    (w : World) (model : ModelDecl) (st : TravState) :
    visitFieldsAux v w model [] st = .ok st := rfl

theorem visitFieldsAux_cons_ok {f : Field} {args : List Nat}
    (hga : get_recursive_args f.type_obj = .ok args)
    (v : ModelDecl → TravState → Except ErdError TravState) (w : World)
    (model : ModelDecl) (fs : List Field) (st : TravState) :
    visitFieldsAux v w model (f :: fs) st =
      (visitArgsAux v w model f args st) >>= fun st1 =>
        visitFieldsAux v w model fs st1 := by
  simp only [visitFieldsAux, hga]

theorem visitArgsAux_nil (v : ModelDecl → TravState → Except ErdError TravState)
    (w : World) (model : ModelDecl) (f : Field) (st : TravState) :
    visitArgsAux v w model f [] st = .ok st := rfl

theorem visitArgsAux_cons_none {w : World} {a : Nat} (hada : adapt_model w a = none)
    (v : ModelDecl → TravState → Except ErdError TravState) (model : ModelDecl)
    (f : Field) (rest : List Nat) (st : TravState) :
    visitArgsAux v w model f (a :: rest) st = visitArgsAux v w model f rest st := by
  simp only [visitArgsAux, hada]

theorem visitArgsAux_cons_some {w : World} {a : Nat} {c model : ModelDecl} {f : Field}
    (hada : adapt_model w a = some c) (hf : f ∈ model.fields)
    (v : ModelDecl → TravState → Except ErdError TravState) (rest : List Nat)
    (st : TravState) :
    visitArgsAux v w model f (a :: rest) st =
      (v c ⟨st.seen_models,
            insertEdge { source := model, source_field := f, target := c }
              st.seen_edges⟩) >>= fun st2 =>
        visitArgsAux v w model f rest st2 := by
  have hmk : Edge.make model f c =
      .ok { source := model, source_field := f, target := c } := by
    unfold Edge.make
    rw [if_pos hf]
  simp only [visitArgsAux, hada, hmk, except_bind_ok]

/-! ### The traversal invariant -/

theorem argsSpec_refl (w : World) (fuel1 : Nat) (model : ModelDecl) (st : TravState) :
    ArgsSpec w fuel1 model st st :=
  ⟨[], [], by simp, by simp, id, id, by simp, by simp⟩

theorem argsSpec_trans {w : World} {fuel1 : Nat} {model : ModelDecl}
    {st st₁ st' : TravState} (h₁ : ArgsSpec w fuel1 model st st₁)
    (h₂ : ArgsSpec w fuel1 model st₁ st') : ArgsSpec w fuel1 model st st' := by
  obtain ⟨m1, e1, hm1, he1, hn1, hne1, hp1, hq1⟩ := h₁
  obtain ⟨m2, e2, hm2, he2, hn2, hne2, hp2, hq2⟩ := h₂
  refine ⟨m1 ++ m2, e1 ++ e2, ?_, ?_, fun hh => hn2 (hn1 hh), fun hh => hne2 (hne1 hh),
    ?_, ?_⟩
  · rw [hm2, hm1, List.append_assoc]
  · rw [he2, he1, List.append_assoc]
  · intro x hx
    rcases List.mem_append.mp hx with hx | hx
    · exact hp1 x hx
    · exact hp2 x hx
  · intro e he
    rcases List.mem_append.mp he with he | he
    · exact hq1 e he
    · exact hq2 e he

theorem visitSpec_lift {w : World} {fuel1 : Nat} {model c : ModelDecl}
    {st₁ st₂ : TravState} (hstep : FieldStep w model c)
    (hspec : VisitSpec w fuel1 c st₁ st₂) : ArgsSpec w fuel1 model st₁ st₂ := by
  obtain ⟨msuf, esuf, hm, he, _, hn, hne, hp, hq⟩ := hspec
  refine ⟨msuf, esuf, hm, he, hn, hne, ?_, ?_⟩
  · intro x hx
    obtain ⟨hAO, k, hk, hr⟩ := hp x hx
    refine ⟨hAO, k + 1, Nat.succ_le_succ hk, ?_⟩
    rw [Nat.add_comm]
    exact reachN_trans (reachN_one hstep) hr
  · intro e he
    obtain ⟨hWf, k, hk, hr, hsa⟩ := hq e he
    refine ⟨hWf, k + 1, Nat.succ_lt_succ hk, ?_, hsa⟩
    rw [Nat.add_comm]
    exact reachN_trans (reachN_one hstep) hr

theorem visitArgsAux_spec {w : World} {fuel1 : Nat} {model : ModelDecl} {f : Field}
    (hmodel : AdaptOrigin w model) (hf : f ∈ model.fields)
    {args0 : List Nat} (hargs0 : get_recursive_args f.type_obj = .ok args0)
    (hvis : ∀ c st₁ st₂, AdaptOrigin w c → visitModel w fuel1 c st₁ = .ok st₂ →
      VisitSpec w fuel1 c st₁ st₂) :
    ∀ (as : List Nat), (∀ a ∈ as, a ∈ args0) → ∀ (st st' : TravState),
      visitArgsAux (fun c s => visitModel w fuel1 c s) w model f as st = .ok st' →
      ArgsSpec w fuel1 model st st' := by
  intro as
  induction as with
  | nil =>
    intro _ st st' h
    rw [visitArgsAux_nil] at h
    injection h with h
    subst h
    exact argsSpec_refl w fuel1 model st
  | cons a rest ih =>
    intro hsub st st' h
    have ha0 : a ∈ args0 := hsub a (List.mem_cons_self a rest)
    have hsub' : ∀ b ∈ rest, b ∈ args0 := fun b hb => hsub b (List.mem_cons.mpr (Or.inr hb))
    cases hada : adapt_model w a with
    | none =>
      rw [visitArgsAux_cons_none hada] at h
      exact ih hsub' st st' h
    | some c =>
      rw [visitArgsAux_cons_some hada hf] at h
      cases hv : visitModel w fuel1 c
          ⟨st.seen_models, insertEdge { source := model, source_field := f, target := c }
            st.seen_edges⟩ with
      | error err =>
        rw [hv, except_bind_error] at h
        exact Except.noConfusion h
      | ok st₂ =>
        rw [hv, except_bind_ok] at h
        have hcAO : AdaptOrigin w c := adaptOrigin_of_adapt hada
        have hstep : FieldStep w model c := ⟨f, hf, args0, hargs0, a, ha0, hada⟩
        have hchild := visitSpec_lift hstep (hvis c _ st₂ hcAO hv)
        have hrest := ih hsub' st₂ st' h
        have hfirst : ArgsSpec w fuel1 model st
            ⟨st.seen_models, insertEdge { source := model, source_field := f, target := c }
              st.seen_edges⟩ := by
          refine ⟨[],
            if ({ source := model, source_field := f, target := c } : Edge) ∈ st.seen_edges
              then [] else [{ source := model, source_field := f, target := c }],
            by simp, ?_, id, ?_, by simp, ?_⟩
          · exact insertEdge_eq_append _ st.seen_edges
          · intro hnod
            exact insertEdge_nodup hnod
          · intro e he
            by_cases hmem :
                ({ source := model, source_field := f, target := c } : Edge) ∈ st.seen_edges
            · rw [if_pos hmem] at he
              exact absurd he (List.not_mem_nil e)
            · rw [if_neg hmem, List.mem_singleton] at he
              subst he
              exact ⟨⟨hmodel, hcAO, hf⟩, 0, Nat.succ_pos fuel1, ReachN.refl,
                args0, hargs0, a, ha0, hada⟩
        exact argsSpec_trans hfirst (argsSpec_trans hchild hrest)

theorem visitFieldsAux_spec {w : World} {fuel1 : Nat} {model : ModelDecl}
    (hmodel : AdaptOrigin w model)
    (hvis : ∀ c st₁ st₂, AdaptOrigin w c → visitModel w fuel1 c st₁ = .ok st₂ →
      VisitSpec w fuel1 c st₁ st₂) :
    ∀ (fs : List Field), (∀ f ∈ fs, f ∈ model.fields) → ∀ (st st' : TravState),
      visitFieldsAux (fun c s => visitModel w fuel1 c s) w model fs st = .ok st' →
      ArgsSpec w fuel1 model st st' := by
  intro fs
  induction fs with
  | nil =>
    intro _ st st' h
    rw [visitFieldsAux_nil] at h
    injection h with h
    subst h
    exact argsSpec_refl w fuel1 model st
  | cons f fs ih =>
    intro hfs st st' h
    have hf : f ∈ model.fields := hfs f (List.mem_cons_self f fs)
    have hfs' : ∀ g ∈ fs, g ∈ model.fields :=
      fun g hg => hfs g (List.mem_cons.mpr (Or.inr hg))
    cases hga : get_recursive_args f.type_obj with
    | error err =>
      cases err with
      | strForward r =>
        simp only [visitFieldsAux, hga] at h
        exact Except.noConfusion h
      | unevalForward r =>
        simp only [visitFieldsAux, hga] at h
        exact Except.noConfusion h
    | ok args =>
      rw [visitFieldsAux_cons_ok hga] at h
      cases hv : visitArgsAux (fun c s => visitModel w fuel1 c s) w model f args st with
      | error err =>
        rw [hv, except_bind_error] at h
        exact Except.noConfusion h
      | ok st₁ =>
        rw [hv, except_bind_ok] at h
        exact argsSpec_trans
          (visitArgsAux_spec hmodel hf hga hvis args (fun a ha => ha) st st₁ hv)
          (ih hfs' st₁ st' h)

theorem visitModel_spec (w : World) :
    ∀ (fuel : Nat) (m : ModelDecl) (st st' : TravState),
      AdaptOrigin w m → visitModel w fuel m st = .ok st' → VisitSpec w fuel m st st' := by
  intro fuel
  induction fuel with
  | zero =>
    intro m st st' hm h
    by_cases hmem : m ∈ st.seen_models
    · rw [visitModel_of_mem hmem] at h
      injection h with h
      subst h
      exact ⟨[], [], by simp, by simp, hmem, id, id, by simp, by simp⟩
    · rw [visitModel_zero hmem] at h
      injection h with h
      subst h
      refine ⟨[m], [], rfl, by simp, by simp, ?_, id, ?_, by simp⟩
      · intro hnod
        exact nodup_append_singleton hnod hmem
      · intro x hx
        rw [List.mem_singleton] at hx
        subst hx
        exact ⟨hm, 0, Nat.le_refl 0, ReachN.refl⟩
  | succ fuel1 ih =>
    intro m st st' hm h
    by_cases hmem : m ∈ st.seen_models
    · rw [visitModel_of_mem hmem] at h
      injection h with h
      subst h
      exact ⟨[], [], by simp, by simp, hmem, id, id, by simp, by simp⟩
    · rw [visitModel_succ hmem] at h
      have hargs := visitFieldsAux_spec hm
        (fun c st₁ st₂ hc hv => ih c st₁ st₂ hc hv) m.fields (fun f hfm => hfm) _ st' h
      obtain ⟨msuf, esuf, hms, hes, hn, hne, hp, hq⟩ := hargs
      refine ⟨m :: msuf, esuf, ?_, hes, ?_, ?_, hne, ?_, hq⟩
      · rw [hms]
        simp
      · rw [hms]
        simp
      · intro hnod
        exact hn (nodup_append_singleton hnod hmem)
      · intro x hx
        rcases List.mem_cons.mp hx with hx | hx
        · subst hx
          exact ⟨hm, 0, Nat.zero_le _, ReachN.refl⟩
        · exact hp x hx

theorem rootsFold_spec (w : World) (dl : Nat) :
    ∀ (roots : List Nat) (st st' : TravState),
      rootsFold w dl roots st = .ok st' → FoldSpec w dl roots st st' := by
  intro roots
  induction roots with
  | nil =>
    intro st st' h
    rw [rootsFold_nil] at h
    injection h with h
    subst h
    exact ⟨[], [], by simp, by simp, id, id, by simp, by simp, by simp⟩
  | cons r roots ih =>
    intro st st' h
    rw [rootsFold_cons] at h
    cases hstep : rootStep w dl st r with
    | error e =>
      rw [hstep, except_bind_error] at h
      exact Except.noConfusion h
    | ok st₁ =>
      rw [hstep, except_bind_ok] at h
      cases hada : adapt_model w r with
      | none =>
        unfold rootStep at hstep
        rw [hada] at hstep
        exact Except.noConfusion hstep
      | some m₀ =>
        have hsearch : visitModel w dl m₀ st = .ok st₁ := by
          unfold rootStep at hstep
          rw [hada] at hstep
          exact hstep
        have hvs := visitModel_spec w dl m₀ st st₁ (adaptOrigin_of_adapt hada) hsearch
        have hfold := ih st₁ st' h
        obtain ⟨m1, e1, hm1, he1, hmem₀, hn1, hne1, hp1, hq1⟩ := hvs
        obtain ⟨m2, e2, hm2, he2, hn2, hne2, hroots2, hp2, hq2⟩ := hfold
        refine ⟨m1 ++ m2, e1 ++ e2, ?_, ?_, fun hh => hn2 (hn1 hh),
          fun hh => hne2 (hne1 hh), ?_, ?_, ?_⟩
        · rw [hm2, hm1, List.append_assoc]
        · rw [he2, he1, List.append_assoc]
        · intro r' hr' m' hm'
          rcases List.mem_cons.mp hr' with hr' | hr'
          · subst hr'
            rw [hada] at hm'
            have hmm := Option.some.inj hm'
            subst hmm
            rw [hm2]
            exact List.mem_append.mpr (Or.inl hmem₀)
          · exact hroots2 r' hr' m' hm'
        · intro x hx
          rcases List.mem_append.mp hx with hx | hx
          · obtain ⟨hAO, k, hk, hr⟩ := hp1 x hx
            exact ⟨hAO, r, m₀, k, List.mem_cons_self r roots, hada, hk, hr⟩
          · obtain ⟨hAO, r', m', k, hr', hm', hk, hrr⟩ := hp2 x hx
            exact ⟨hAO, r', m', k, List.mem_cons.mpr (Or.inr hr'), hm', hk, hrr⟩
        · intro e he
          rcases List.mem_append.mp he with he | he
          · obtain ⟨hWf, k, hk, hr, hsa⟩ := hq1 e he
            exact ⟨hWf, r, m₀, k, List.mem_cons_self r roots, hada, hk, hr, hsa⟩
          · obtain ⟨hWf, r', m', k, hr', hm', hk, hrr, hsa⟩ := hq2 e he
            exact ⟨hWf, r', m', k, List.mem_cons.mpr (Or.inr hr'), hm', hk, hrr, hsa⟩

/-! ### Canonical sorting is a function of the set contents -/

theorem eq_of_perm_sorted_antisymmOn {α : Type} {r : α → α → Prop} :
    ∀ (l₁ l₂ : List α), List.Perm l₁ l₂ → List.Sorted r l₁ → List.Sorted r l₂ →
      (∀ a, a ∈ l₁ → ∀ b, b ∈ l₁ → r a b → r b a → a = b) → l₁ = l₂ := by
  intro l₁
  induction l₁ with
  | nil =>
    intro l₂ hp _ _ _
    exact hp.nil_eq
  | cons a t₁ ih =>
    intro l₂ hp hs₁ hs₂ hanti
    cases l₂ with
    | nil => exact absurd hp.eq_nil (by simp)
    | cons b t₂ =>
      have hab : a = b := by
        rcases List.mem_cons.mp (hp.subset (List.mem_cons_self a t₁)) with hh | hh
        · exact hh
        · rcases List.mem_cons.mp (hp.symm.subset (List.mem_cons_self b t₂)) with hh' | hh'
          · exact hh'.symm
          · exact hanti a (List.mem_cons_self a t₁) b (List.mem_cons.mpr (Or.inr hh'))
              (List.rel_of_sorted_cons hs₁ b hh') (List.rel_of_sorted_cons hs₂ a hh)
      subst hab
      have ht := ih t₂ hp.cons_inv hs₁.of_cons hs₂.of_cons
        (fun x hx y hy => hanti x (List.mem_cons.mpr (Or.inr hx)) y
          (List.mem_cons.mpr (Or.inr hy)))
      rw [ht]

theorem edge_eq_of_sortKey_eq {w : World} {e₁ e₂ : Edge} (h₁ : EdgeWf w e₁)
    (h₂ : EdgeWf w e₂) (hk : edgeSortKey e₁ = edgeSortKey e₂) : e₁ = e₂ := by
  obtain ⟨hs₁, ht₁, hf₁⟩ := h₁
  obtain ⟨hs₂, ht₂, hf₂⟩ := h₂
  have hk1 : e₁.source.key = e₂.source.key := congrArg Prod.fst hk
  have hk2 : e₁.source.fields.indexOf e₁.source_field =
      e₂.source.fields.indexOf e₂.source_field := congrArg (fun p => p.2.1) hk
  have hk3 : e₁.target.key = e₂.target.key := congrArg (fun p => p.2.2) hk
  have hsrc : e₁.source = e₂.source := adaptOrigin_inj hs₁ hs₂ hk1
  have htgt : e₁.target = e₂.target := adaptOrigin_inj ht₁ ht₂ hk3
  have hf₂' : e₂.source_field ∈ e₁.source.fields := by
    rw [hsrc]
    exact hf₂
  have hk2' : List.indexOf e₁.source_field e₁.source.fields =
      List.indexOf e₂.source_field e₁.source.fields := by
    rw [hk2, hsrc]
  have hfld : e₁.source_field = e₂.source_field := (List.indexOf_inj hf₁ hf₂').mp hk2'
  calc e₁ = ⟨e₁.source, e₁.source_field, e₁.target⟩ := rfl
  _ = ⟨e₂.source, e₂.source_field, e₂.target⟩ := by rw [hsrc, htgt, hfld]
  _ = e₂ := rfl

theorem sortModels_eq_of_perm {w : World} {l₁ l₂ : List ModelDecl}
    (hperm : List.Perm l₁ l₂) (hAO : ∀ m ∈ l₁, AdaptOrigin w m) :
    sortModels l₁ = sortModels l₂ := by
  apply eq_of_perm_sorted_antisymmOn
  · exact (List.perm_insertionSort modelLe l₁).trans
      (hperm.trans (List.perm_insertionSort modelLe l₂).symm)
  · exact List.sorted_insertionSort modelLe l₁
  · exact List.sorted_insertionSort modelLe l₂
  · intro a ha b hb hab hba
    have ha' : a ∈ l₁ := (List.perm_insertionSort modelLe l₁).subset ha
    have hb' : b ∈ l₁ := (List.perm_insertionSort modelLe l₁).subset hb
    exact adaptOrigin_inj (hAO a ha') (hAO b hb') (Nat.le_antisymm hab hba)

theorem sortEdges_eq_of_perm {w : World} {l₁ l₂ : List Edge}
    (hperm : List.Perm l₁ l₂) (hWf : ∀ e ∈ l₁, EdgeWf w e) :
    sortEdges l₁ = sortEdges l₂ := by
  apply eq_of_perm_sorted_antisymmOn
  · exact (List.perm_insertionSort edgeLe l₁).trans
      (hperm.trans (List.perm_insertionSort edgeLe l₂).symm)
  · exact List.sorted_insertionSort edgeLe l₁
  · exact List.sorted_insertionSort edgeLe l₂
  · intro a ha b hb hab hba
    have ha' : a ∈ l₁ := (List.perm_insertionSort edgeLe l₁).subset ha
    have hb' : b ∈ l₁ := (List.perm_insertionSort edgeLe l₁).subset hb
    exact edge_eq_of_sortKey_eq (hWf a ha') (hWf b hb') (key3Le_antisymm hab hba)

/-! ### Inversion of the diagram constructor and of `create` -/

theorem make_inv {lm : List ModelDecl} {le : List Edge} {orient : Orientation}
    {d : EntityRelationshipDiagram}
    (h : EntityRelationshipDiagram.make lm le orient = .ok d) :
    ∃ m0 ms, lm = m0 :: ms ∧ d.models = sortModels lm ∧ d.edges = sortEdges le ∧
      d.name = m0.name ∧ d.orientation = orient.str := by
  cases lm with
  | nil =>
    simp only [EntityRelationshipDiagram.make] at h
    exact Except.noConfusion h
  | cons m0 ms =>
    simp only [EntityRelationshipDiagram.make] at h
    injection h with h
    subst h
    exact ⟨m0, ms, rfl, rfl, rfl, rfl, rfl⟩

theorem createDefault_inv {w : World} {roots : List Nat} {dl : Nat}
    {d : EntityRelationshipDiagram} (h : createDefault w roots dl = .ok d) :
    ∃ st, rootsFold w dl roots ⟨[], []⟩ = .ok st ∧
      d.models = sortModels st.seen_models ∧ d.edges = sortEdges st.seen_edges ∧
      ∃ m0 ms, st.seen_models = m0 :: ms ∧ d.name = m0.name := by
  unfold createDefault at h
  rw [create_def] at h
  cases hst : rootsFold w dl roots ⟨[], []⟩ with
  | error e =>
    rw [hst, except_bind_error] at h
    exact Except.noConfusion h
  | ok st =>
    rw [hst, except_bind_ok] at h
    simp only [idEnum, id_eq] at h
    obtain ⟨m0, ms, hms, hdm, hde, hname, _⟩ := make_inv h
    exact ⟨st, rfl, hdm, hde, m0, ms, hms, hname⟩

theorem visitModel_head {w : World} {fuel : Nat} {m : ModelDecl} {es : List Edge}
    {st' : TravState} (hm : AdaptOrigin w m)
    (h : visitModel w fuel m ⟨[], es⟩ = .ok st') :
    ∃ suf, st'.seen_models = m :: suf := by
  cases fuel with
  | zero =>
    rw [visitModel_zero (List.not_mem_nil m)] at h
    injection h with h
    subst h
    exact ⟨[], rfl⟩
  | succ fuel1 =>
    rw [visitModel_succ (List.not_mem_nil m)] at h
    have hargs := visitFieldsAux_spec hm
      (fun c st₁ st₂ hc hv => visitModel_spec w fuel1 c st₁ st₂ hc hv)
      m.fields (fun f hf => hf) _ st' h
    obtain ⟨msuf, esuf, hms, _, _, _, _, _⟩ := hargs
    refine ⟨msuf, ?_⟩
    rw [hms]
    rfl

/-! ### Claims that follow from the definitional equations -/

/-- **C5 (counterexample)** — the claim says the diagram name equals the
display name of the first supplied root model, never an arbitrary member of
the discovered model set. But `create` builds the diagram from
`list(seen_models)`, whose CPython set iteration order is unspecified: under
the admissible reversed enumeration, the diagram for root `A` (the raw type
`0`, adapting to the model named `"A"`) is named `"B"`. -/
theorem claim_C5_counterexample :
    IsSetEnum revEnum ∧
    adapt_model wPair 0 = some mA ∧ mA.name = "A" ∧
    (create wPair revEnum [0] 1 Orientation.horizontal).map (fun d => d.name) =
      .ok "B" ∧
    ("B" : String) ≠ "A" := by
  refine ⟨⟨fun l => List.reverse_perm l, fun l => List.reverse_perm l⟩, ?_, rfl, ?_, ?_⟩
  · decide
  · decide
  · decide

/-- **C6** — an unknown model type is fatal for a caller-supplied root (after
the earlier roots processed successfully, `create` raises
`UnknownModelTypeError` for it), while an unknown model type for a
field-type candidate is silently skipped: the candidate loop continues on
the remaining candidates with the state unchanged, adding neither a model
nor an edge. -/
theorem claim_C6 (w : World) :
    (∀ (E : SetEnum) (pre : List Nat) (r : Nat) (post : List Nat) (dl : Nat)
        (orient : Orientation) (st₁ : TravState),
      adapt_model w r = none →
      rootsFold w dl pre ⟨[], []⟩ = .ok st₁ →
      create w E (pre ++ r :: post) dl orient = .error (.unknownModelType r)) ∧
    (∀ (visit : ModelDecl → TravState → Except ErdError TravState)
        (model : ModelDecl) (f : Field) (a : Nat) (rest : List Nat) (st : TravState),
      adapt_model w a = none →
      visitArgsAux visit w model f (a :: rest) st =
        visitArgsAux visit w model f rest st) := by
  constructor
  · intro E pre r post dl orient st₁ hnone hpre
    rw [create_def, rootsFold_append, hpre, except_bind_ok, rootsFold_cons]
    have hstep : rootStep w dl st₁ r = .error (.unknownModelType r) := by
      unfold rootStep
      rw [hnone]
    rw [hstep, except_bind_error, except_bind_error]
  · intro visit model f a rest st hnone
    simp only [visitArgsAux, hnone]

/-- **C7** — when resolving a field's declared type hits an unresolved string
annotation, discovery aborts with the string-forward-reference error; a
named-but-unbound forward reference aborts with the distinct
unevaluated-forward-reference error; both errors carry the model, the field
and the raw reference; and any error an in-progress search raises propagates
out of `create` unchanged (it is never swallowed). -/
theorem claim_C7 (w : World) :
    (∀ (model : ModelDecl) (st : TravState) (depth dl : Nat) (f : Field)
        (fs : List Field) (r : String),
      model ∉ st.seen_models → depth < dl → model.fields = f :: fs →
      get_recursive_args f.type_obj = .error (.strForward r) →
      search_composition_graph w model st depth dl =
        .error (.stringForwardRef model.key f.name r)) ∧
    (∀ (model : ModelDecl) (st : TravState) (depth dl : Nat) (f : Field)
        (fs : List Field) (r : String),
      model ∉ st.seen_models → depth < dl → model.fields = f :: fs →
      get_recursive_args f.type_obj = .error (.unevalForward r) →
      search_composition_graph w model st depth dl =
        .error (.unevaluatedForwardRef model.key f.name r)) ∧
    (∀ (E : SetEnum) (pre : List Nat) (r : Nat) (post : List Nat) (dl : Nat)
        (orient : Orientation) (m : ModelDecl) (st₁ : TravState) (err : ErdError),
      rootsFold w dl pre ⟨[], []⟩ = .ok st₁ →
      adapt_model w r = some m →
      search_composition_graph w m st₁ 0 dl = .error err →
      create w E (pre ++ r :: post) dl orient = .error err) := by
  refine ⟨?_, ?_, ?_⟩
  · intro model st depth dl f fs r hmem hlt hfields herr
    unfold search_composition_graph
    obtain ⟨k, hk⟩ : ∃ k, dl - depth = k + 1 :=
      ⟨dl - depth - 1, (Nat.succ_pred_eq_of_pos (Nat.sub_pos_of_lt hlt)).symm⟩
    rw [hk]
    unfold visitModel
    rw [if_neg hmem, hfields]
    unfold visitFieldsAux
    rw [herr]
  · intro model st depth dl f fs r hmem hlt hfields herr
    unfold search_composition_graph
    obtain ⟨k, hk⟩ : ∃ k, dl - depth = k + 1 :=
      ⟨dl - depth - 1, (Nat.succ_pred_eq_of_pos (Nat.sub_pos_of_lt hlt)).symm⟩
    rw [hk]
    unfold visitModel
    rw [if_neg hmem, hfields]
    unfold visitFieldsAux
    rw [herr]
  · intro E pre r post dl orient m st₁ err hpre hadapt hsearch
    rw [create_def, rootsFold_append, hpre, except_bind_ok, rootsFold_cons]
    have hstep : rootStep w dl st₁ r = .error err := by
      unfold rootStep
      rw [hadapt]
      exact hsearch
    rw [hstep, except_bind_error, except_bind_error]

/-- **C7 (witness)** — in the concrete worlds `wStr` and `wNamed`, discovery
from the respective root aborts with the string-forward-reference error,
resp. the unevaluated-forward-reference error, each naming the model, the
field and the raw reference. -/
theorem claim_C7_witness :
    search_composition_graph wStr mStr ⟨[], []⟩ 0 1 =
      .error (.stringForwardRef 3 "bad" "Quest") ∧
    search_composition_graph wNamed mNamed ⟨[], []⟩ 0 1 =
      .error (.unevaluatedForwardRef 4 "later" "Party") := by
  constructor
  · exact (claim_C7 wStr).1 mStr ⟨[], []⟩ 0 1 fStr [] "Quest"
      (by decide) (by decide) rfl (by decide)
  · exact (claim_C7 wNamed).2.1 mNamed ⟨[], []⟩ 0 1 fNamed [] "Party"
      (by decide) (by decide) rfl (by decide)

/-- **C6 (witness)** — with the pair world, a root raw type `99` matching no
adapter is fatal after the valid root `0` was processed, and an unknown
candidate `99` in the candidate loop is skipped with the state unchanged. -/
theorem claim_C6_witness :
    create wPair idEnum ([0] ++ 99 :: []) 1 Orientation.horizontal =
      .error (.unknownModelType 99) ∧
    visitArgsAux (fun _ s => .ok s) wPair mA fToB (99 :: []) ⟨[mA], []⟩ =
      visitArgsAux (fun _ s => .ok s) wPair mA fToB [] ⟨[mA], []⟩ := by
  constructor
  · exact (claim_C6 wPair).1 idEnum [0] 99 [] 1 Orientation.horizontal
      ⟨[mA, mB], [{ source := mA, source_field := fToB, target := mB }]⟩
      (by decide) (by decide)
  · exact (claim_C6 wPair).2 (fun _ s => .ok s) mA fToB 99 [] ⟨[mA], []⟩ (by decide)

/-- **C8** — `Edge.__init__` raises the unknown-field error exactly when the
source field is not a member of the source model's fields; otherwise it
stores the three attributes unchanged. -/
theorem claim_C8 (s : ModelDecl) (f : Field) (t : ModelDecl) :
    (f ∈ s.fields → Edge.make s f t = .ok { source := s, source_field := f, target := t }) ∧
    (f ∉ s.fields → Edge.make s f t = .error (.unknownField s.key f.name)) := by
  constructor
  · intro h
    unfold Edge.make
    rw [if_pos h]
  · intro h
    unfold Edge.make
    rw [if_neg h]

/-- **C8 (witness)** — constructing the edge `A.b -> B` succeeds and stores
its attributes, while constructing an edge claiming field `b` on the
field-less model `B` fails with the unknown-field error. -/
theorem claim_C8_witness :
    Edge.make mA fToB mB = .ok { source := mA, source_field := fToB, target := mB } ∧
    Edge.make mB fToB mA = .error (.unknownField 1 "b") := by
  constructor
  · exact (claim_C8 mA fToB mB).1 (by decide)
  · exact (claim_C8 mB fToB mA).2 (by decide)

/-- **C9** — the rendered arrowhead is a pure function of the source field's
`is_many` and `is_nullable` predicates: a single-valued non-nullable field
renders cardinality one (`nonetee`) with modality mandatory (`tee`); a
collection-valued field renders cardinality many (`crow`) with modality
optional (`odot`) regardless of its own nullability; a nullable
single-valued field renders cardinality one with modality optional. -/
theorem claim_C9 (e : Edge) :
    (e.source_field.is_many = false ∧ e.source_field.is_nullable = false →
      e.dot_arrowhead = "noneteetee") ∧
    (e.source_field.is_many = true → e.dot_arrowhead = "crowodot") ∧
    (e.source_field.is_many = false ∧ e.source_field.is_nullable = true →
      e.dot_arrowhead = "noneteeodot") := by
  refine ⟨?_, ?_, ?_⟩
  · intro h
    unfold Edge.dot_arrowhead
    rw [h.1, h.2]
    rfl
  · intro h
    unfold Edge.dot_arrowhead
    rw [h]
    simp
  · intro h
    unfold Edge.dot_arrowhead
    rw [h.1, h.2]
    rfl

/-- **C9 (witness)** — the three cases at concrete edges: `A.b -> B` (single
non-nullable), a self-loop through a collection field, and an edge through a
nullable single-valued field. -/
theorem claim_C9_witness :
    Edge.dot_arrowhead { source := mA, source_field := fToB, target := mB } = "noneteetee" ∧
    Edge.dot_arrowhead { source := mSelf, source_field := fSelf, target := mSelf } = "crowodot" ∧
    Edge.dot_arrowhead { source := mA, source_field := fOpt, target := mB } = "noneteeodot" := by
  refine ⟨?_, ?_, ?_⟩
  · exact (claim_C9 _).1 ⟨by decide, by decide⟩
  · exact (claim_C9 _).2.1 (by decide)
  · exact (claim_C9 _).2.2 ⟨by decide, by decide⟩

/-- **C10** — the diagram constructor reads `models[0]` and therefore fails
on an empty model sequence with `IndexError`; consequently `create` with no
roots raises instead of returning an empty diagram, and any diagram `create`
does return has a non-empty model list. -/
theorem claim_C10 :
    (∀ (edges : List Edge) (orient : Orientation),
      EntityRelationshipDiagram.make [] edges orient = .error .indexError) ∧
    (∀ (w : World) (dl : Nat), createDefault w [] dl = .error .indexError) ∧
    (∀ (w : World) (roots : List Nat) (dl : Nat) (d : EntityRelationshipDiagram),
      createDefault w roots dl = .ok d → d.models ≠ []) := by
  refine ⟨fun edges orient => rfl, fun w dl => rfl, ?_⟩
  intro w roots dl d h
  unfold createDefault at h
  rw [create_def] at h
  cases hst : rootsFold w dl roots ⟨[], []⟩ with
  | error e =>
    rw [hst, except_bind_error] at h
    exact absurd h (by intro hh; cases hh)
  | ok st =>
    rw [hst, except_bind_ok] at h
    cases hms : st.seen_models with
    | nil =>
      rw [hms] at h
      exact absurd h (by intro hh; cases hh)
    | cons m0 ms =>
      rw [hms] at h
      have hd : d.models = sortModels (m0 :: ms) := by
        cases h
        rfl
      intro hnil
      rw [hd] at hnil
      have hperm := List.perm_insertionSort modelLe (m0 :: ms)
      rw [sortModels] at hnil
      rw [hnil] at hperm
      exact absurd hperm.symm.eq_nil (by simp)

/-- **C10 (witness)** — `createDefault wPair [0] 1` returns the concrete
diagram `dPair`, whose model list is non-empty. -/
theorem claim_C10_witness : dPair.models ≠ [] :=
  claim_C10.2.2 wPair [0] 1 dPair (by decide)

/-- **C1** — depth limiting. With `depth_limit = 0`, discovery records
exactly the adapted root models and no edges. For any `depth_limit = N`,
every edge's target model is reachable from some adapted root within `N`
composition steps, so no edge targets a model first reachable only at
traversal depth greater than `N`. -/
theorem claim_C1 (w : World) (roots : List Nat) :
    (∀ d₀, createDefault w roots 0 = .ok d₀ →
      d₀.edges = [] ∧
      ∀ m : ModelDecl, m ∈ d₀.models ↔ ∃ r ∈ roots, adapt_model w r = some m) ∧
    (∀ (N : Nat) (d : EntityRelationshipDiagram), createDefault w roots N = .ok d →
      ∀ e ∈ d.edges, ∃ r ∈ roots, ∃ m₀, adapt_model w r = some m₀ ∧
        ∃ k, k ≤ N ∧ ReachN w m₀ k e.target) := by
  constructor
  · intro d₀ h
    obtain ⟨st, hfold, hdm, hde, m0, ms, hms, hname⟩ := createDefault_inv h
    obtain ⟨msuf, esuf, hm, he, hn, hne, hroots, hp, hq⟩ :=
      rootsFold_spec w 0 roots ⟨[], []⟩ st hfold
    have hm' : st.seen_models = msuf := by simpa using hm
    have he' : st.seen_edges = esuf := by simpa using he
    constructor
    · have hesuf : esuf = [] := by
        rw [List.eq_nil_iff_forall_not_mem]
        intro e hee
        obtain ⟨_, r, m₀, k, _, _, hk, _⟩ := hq e hee
        exact absurd hk (Nat.not_lt_zero k)
      rw [hde, he', hesuf]
      rfl
    · intro m
      constructor
      · intro hmm
        rw [hdm, sortModels] at hmm
        have hmem : m ∈ st.seen_models :=
          (List.perm_insertionSort modelLe st.seen_models).mem_iff.mp hmm
        rw [hm'] at hmem
        obtain ⟨_, r, m₀, k, hr, hadapt, hk, hreach⟩ := hp m hmem
        have hk0 : k = 0 := Nat.le_zero.mp hk
        subst hk0
        have hmeq := reachN_zero hreach
        exact ⟨r, hr, by rw [hmeq]; exact hadapt⟩
      · rintro ⟨r, hr, hadapt⟩
        have hmem : m ∈ st.seen_models := hroots r hr m hadapt
        rw [hdm, sortModels]
        exact (List.perm_insertionSort modelLe st.seen_models).mem_iff.mpr hmem
  · intro N d h e hee
    obtain ⟨st, hfold, hdm, hde, _, _, _, _⟩ := createDefault_inv h
    obtain ⟨msuf, esuf, hm, he, hn, hne, hroots, hp, hq⟩ :=
      rootsFold_spec w N roots ⟨[], []⟩ st hfold
    have he' : st.seen_edges = esuf := by simpa using he
    rw [hde, sortEdges] at hee
    have hee' : e ∈ st.seen_edges :=
      (List.perm_insertionSort edgeLe st.seen_edges).mem_iff.mp hee
    rw [he'] at hee'
    obtain ⟨hWf, r, m₀, k, hr, hadapt, hk, hreach, hsa⟩ := hq e hee'
    refine ⟨r, hr, m₀, hadapt, k + 1, Nat.succ_le_of_lt hk, ?_⟩
    have hfs : FieldStep w e.source e.target := by
      obtain ⟨args, hargs, a, ha, hada⟩ := hsa
      exact ⟨e.source_field, hWf.2.2, args, hargs, a, ha, hada⟩
    exact ReachN.step hreach hfs

/-- **C1 (witness)** — in the chain world `A2 -> B2 -> C2` with root `A2`
and depth limit `0`, the diagram has no edges and contains exactly the
adapted roots. -/
theorem claim_C1_witness :
    dChain0.edges = [] ∧
    (mA2 ∈ dChain0.models ↔ ∃ r ∈ [0], adapt_model wChain r = some mA2) := by
  have h := (claim_C1 wChain [0]).1 dChain0 (by decide)
  exact ⟨h.1, h.2 mA2⟩

/-- **C2** — discovery terminates on every model graph, cycles included (the
traversal is a total function whose recursion is bounded by the remaining
depth budget), and its seen-models set is duplicate-free: every discovered
model, in particular a self-referential one, appears exactly once in the
diagram's model list. -/
theorem claim_C2 (w : World) (roots : List Nat) (dl : Nat)
    (d : EntityRelationshipDiagram) (h : createDefault w roots dl = .ok d) :
    d.models.Nodup ∧ ∀ m ∈ d.models, d.models.count m = 1 := by
  obtain ⟨st, hfold, hdm, _, _, _, _, _⟩ := createDefault_inv h
  obtain ⟨msuf, esuf, hm, he, hn, hne, _, _, _⟩ :=
    rootsFold_spec w dl roots ⟨[], []⟩ st hfold
  have hnd : st.seen_models.Nodup := hn List.nodup_nil
  have hnd' : d.models.Nodup := by
    rw [hdm, sortModels]
    exact ((List.perm_insertionSort modelLe st.seen_models).nodup_iff).mpr hnd
  exact ⟨hnd', fun m hmm => List.count_eq_one_of_mem hnd' hmm⟩

/-- **C2 (witness)** — the self-referential world `wSelf` (a model whose
field is typed as a container of itself): discovery returns, and the model
appears exactly once in the resulting model list. -/
theorem claim_C2_witness : dSelf.models.Nodup ∧ dSelf.models.count mSelf = 1 := by
  have h := claim_C2 wSelf [7] 3 dSelf (by decide)
  exact ⟨h.1, h.2 mSelf (by decide)⟩

/-- **C3** — the produced edge list contains at most one edge per
(source, source field, target) triple (the mapped triples are
duplicate-free), and two edges are Python-equal, and hash-equal, exactly
when their triples agree. -/
theorem claim_C3 (w : World) (roots : List Nat) (dl : Nat)
    (d : EntityRelationshipDiagram) (h : createDefault w roots dl = .ok d) :
    (d.edges.map edgeHash).Nodup ∧
    ∀ e₁ e₂ : Edge,
      (edgePyEq e₁ e₂ = true ∧ edgeHash e₁ = edgeHash e₂) ↔
        (e₁.source = e₂.source ∧ e₁.source_field = e₂.source_field ∧
          e₁.target = e₂.target) := by
  constructor
  · obtain ⟨st, hfold, _, hde, _, _, _, _⟩ := createDefault_inv h
    obtain ⟨msuf, esuf, hm, he, hn, hne, _, _, _⟩ :=
      rootsFold_spec w dl roots ⟨[], []⟩ st hfold
    have hnd : st.seen_edges.Nodup := hne List.nodup_nil
    have hnd' : d.edges.Nodup := by
      rw [hde, sortEdges]
      exact ((List.perm_insertionSort edgeLe st.seen_edges).nodup_iff).mpr hnd
    have hinj : Function.Injective edgeHash := by
      intro e₁ e₂ hh
      have h1 : e₁.source = e₂.source := congrArg Prod.fst hh
      have h2 : e₁.source_field = e₂.source_field := congrArg (fun p => p.2.1) hh
      have h3 : e₁.target = e₂.target := congrArg (fun p => p.2.2) hh
      calc e₁ = ⟨e₁.source, e₁.source_field, e₁.target⟩ := rfl
      _ = ⟨e₂.source, e₂.source_field, e₂.target⟩ := by rw [h1, h2, h3]
      _ = e₂ := rfl
    exact hnd'.map hinj
  · intro e₁ e₂
    constructor
    · rintro ⟨_, hh⟩
      exact ⟨congrArg Prod.fst hh, congrArg (fun p => p.2.1) hh,
        congrArg (fun p => p.2.2) hh⟩
    · rintro ⟨h1, h2, h3⟩
      have hh : edgeHash e₁ = edgeHash e₂ := by
        unfold edgeHash
        rw [h1, h2, h3]
      exact ⟨by simp [edgePyEq, hh], hh⟩

/-- **C3 (witness)** — in the world `wDup`, whose root references the same
component twice through the same field, the diagram has duplicate-free edge
triples; the equality criterion instantiated at `eDup` and the `A.b -> B`
edge. -/
theorem claim_C3_witness :
    (dDup.edges.map edgeHash).Nodup ∧
    ((edgePyEq eDup { source := mA, source_field := fToB, target := mB } = true ∧
        edgeHash eDup = edgeHash { source := mA, source_field := fToB, target := mB }) ↔
      (eDup.source = mA ∧ eDup.source_field = fToB ∧ eDup.target = mB)) := by
  have h := claim_C3 wDup [5] 1 dDup (by decide)
  exact ⟨h.1, h.2 eDup { source := mA, source_field := fToB, target := mB }⟩

/-- **C4** — determinism: for fixed roots and depth limit, two invocations
of `create` that enumerate the internal seen-models and seen-edges sets in
any (admissible) iteration orders return diagrams that are Python-equal and
hash-equal, because models and edges are canonically sorted before
comparison and hashing. -/
theorem claim_C4 (w : World) (roots : List Nat) (dl : Nat) (orient : Orientation)
    (E₁ E₂ : SetEnum) (hE₁ : IsSetEnum E₁) (hE₂ : IsSetEnum E₂)
    (d₁ d₂ : EntityRelationshipDiagram)
    (h₁ : create w E₁ roots dl orient = .ok d₁)
    (h₂ : create w E₂ roots dl orient = .ok d₂) :
    diagramPyEq d₁ d₂ = true ∧ diagramHashKey d₁ = diagramHashKey d₂ := by
  rw [create_def] at h₁ h₂
  cases hst : rootsFold w dl roots ⟨[], []⟩ with
  | error e =>
    rw [hst, except_bind_error] at h₁
    exact Except.noConfusion h₁
  | ok st =>
    rw [hst, except_bind_ok] at h₁ h₂
    obtain ⟨msuf, esuf, hm, he, hn, hne, _, hp, hq⟩ :=
      rootsFold_spec w dl roots ⟨[], []⟩ st hst
    have hm' : st.seen_models = msuf := by simpa using hm
    have he' : st.seen_edges = esuf := by simpa using he
    have hAO : ∀ m ∈ st.seen_models, AdaptOrigin w m := by
      intro m hmm
      rw [hm'] at hmm
      exact (hp m hmm).1
    have hWf : ∀ e ∈ st.seen_edges, EdgeWf w e := by
      intro e hee
      rw [he'] at hee
      exact (hq e hee).1
    obtain ⟨a1, t1, hlm₁, hdm₁, hde₁, _, _⟩ := make_inv h₁
    obtain ⟨a2, t2, hlm₂, hdm₂, hde₂, _, _⟩ := make_inv h₂
    have hpm₁ := hE₁.1 st.seen_models
    have hpm₂ := hE₂.1 st.seen_models
    have hpe₁ := hE₁.2 st.seen_edges
    have hpe₂ := hE₂.2 st.seen_edges
    have hmodels : d₁.models = d₂.models := by
      rw [hdm₁, hdm₂]
      apply sortModels_eq_of_perm (hpm₁.trans hpm₂.symm)
      intro m hmm
      exact hAO m (hpm₁.subset hmm)
    have hedges : d₁.edges = d₂.edges := by
      rw [hde₁, hde₂]
      apply sortEdges_eq_of_perm (hpe₁.trans hpe₂.symm)
      intro e hee
      exact hWf e (hpe₁.subset hee)
    have hh : diagramHashKey d₁ = diagramHashKey d₂ := by
      unfold diagramHashKey
      rw [hmodels, hedges]
    exact ⟨by simp [diagramPyEq, hh], hh⟩

/-- **C4 (witness)** — `create` over `wPair` with the insertion-order and
the reversed set enumerations returns the concrete diagrams `dPair` and
`dPairRev`, which are Python-equal and hash-equal (their names differ, but
the name does not enter equality or hash). -/
theorem claim_C4_witness :
    diagramPyEq dPair dPairRev = true ∧
    diagramHashKey dPair = diagramHashKey dPairRev :=
  claim_C4 wPair [0] 1 Orientation.horizontal idEnum revEnum
    ⟨fun l => List.Perm.refl l, fun l => List.Perm.refl l⟩
    ⟨fun l => List.reverse_perm l, fun l => List.reverse_perm l⟩
    dPair dPairRev (by decide) (by decide)

/-- **C5 (amended)** — the diagram's name is the display name of the first
element of the model sequence passed to the constructor, i.e. the head of
the set-iteration order of the discovered seen-models set; under the
insertion-order enumeration this is the display name of the first supplied
root model (the claim's statement holds for insertion order, but not for an
arbitrary set iteration order, as the counterexample shows). -/
theorem claim_C5_amended (w : World) (r : Nat) (roots : List Nat) (dl : Nat)
    (m : ModelDecl) (hadapt : adapt_model w r = some m)
    (d : EntityRelationshipDiagram) (h : createDefault w (r :: roots) dl = .ok d) :
    d.name = m.name := by
  obtain ⟨st, hfold, _, _, m0, ms, hms, hname⟩ := createDefault_inv h
  rw [rootsFold_cons] at hfold
  cases hstep : rootStep w dl ⟨[], []⟩ r with
  | error e =>
    rw [hstep, except_bind_error] at hfold
    exact Except.noConfusion hfold
  | ok st₁ =>
    rw [hstep, except_bind_ok] at hfold
    have hsearch : visitModel w dl m ⟨[], []⟩ = .ok st₁ := by
      unfold rootStep at hstep
      rw [hadapt] at hstep
      exact hstep
    obtain ⟨suf, hsuf⟩ := visitModel_head (adaptOrigin_of_adapt hadapt) hsearch
    obtain ⟨msuf2, esuf2, hm2, he2, hn2, hne2, hroots2, hp2, hq2⟩ :=
      rootsFold_spec w dl roots st₁ st hfold
    have hcons : st.seen_models = m :: (suf ++ msuf2) := by
      rw [hm2, hsuf, List.cons_append]
    rw [hms] at hcons
    injection hcons with h1 _
    rw [hname, h1]

/-- **C5 (amended, witness)** — with insertion order, the diagram for root
`A` is indeed named after `A`. -/
theorem claim_C5_amended_witness : dPair.name = mA.name :=
  claim_C5_amended wPair 0 [] 1 mA (by decide) dPair (by decide)

end Erdantic
